import Mathlib

/-!
Verification of the expression engine of `math_count_htw.py` (the
`Parser` class and the top-level `parse` function, lines 9-158 of the
source).  The parser walks the input string one character at a time,
tracks the set of already-used digits, and evaluates a four-level
recursive-descent grammar in one pass.

Modelling conventions:

* Python strings are modelled as `List Char`; the cursor is a natural
  number index; `_peek` is `List.get?`, which returns `none` where
  Python returns the empty string `""`.
* Python floats are modelled as exact rationals, represented as
  unnormalised integer fractions (`Frac`, a numerator/denominator pair)
  so that every arithmetic step is kernel-computable.  All inputs the
  claims evaluate concretely stay in ranges where double-precision
  arithmetic is exact, so the exact-fraction model agrees with the float
  semantics there.  Results of `**` with a non-integral exponent over a
  non-negative base are irrational in general and are not tracked: they
  are modelled by the marker `Val.approx`, and any later operation whose
  outcome would depend on the untracked value aborts with the marker
  error `Fail.notModelled`.
* CPython's `float.__pow__` returns a *complex* number (it does not
  raise) when the base is negative and the exponent is not integral;
  this branch is modelled by `Val.cplx`.  Applying `float(...)` to a
  complex value raises a `TypeError` that `parse` does not catch; this
  escape of an unstructured exception is modelled by `Fail.pyException`.
* Python exceptions are modelled with `Except`: `ParsingError(char, msg)`
  becomes `PErr`, with the distinct message literals of the source mapped
  to the constructors of `ErrKind`.
* The mutually recursive grammar functions take a fuel argument so that
  the recursion is structural; fuel exhaustion is the distinguished
  outcome `Fail.outOfFuel`, and the top-level `parse` supplies fuel that
  is large enough for every input (6 units per character of input plus a
  constant covers the deepest possible chain of calls).
* The `while` loops of `parse_expression`, `parse_term` and
  `parse_factor` are encoded as the tail-recursive helpers `exprLoop`,
  `termLoop` and `factLoop`.
-/

namespace MathCountHTW

/-- Input text, modelling the Python string held by the `Parser`. -/
abbrev Text := List Char

/-- The backquote character, the quoting delimiter skipped by
`_skip_spaces` (source line 38). -/
def backquote : Char := Char.ofNat 96

/-- The allowed digit alphabet, source line 9: `allowed_digits`. -/
def allowedDigits : List Char := ['1', '2', '3', '4', '5', '6']

/-- A character is insignificant when `_skip_spaces` skips it:
whitespace or the backquote (source line 38). -/
def insignificant (c : Char) : Bool := c.isWhitespace || c == backquote

/-- The error kinds of the engine, one per distinct `ParsingError`
message literal in the source. -/
inductive ErrKind where
  | emptyInput
  | disallowedDigit
  | duplicateDigit
  | disallowedCharacter
  | unexpectedEnd
  | missingClosingParen
  | divisionByZero
  | invalidPower
  | invalidFactorial
  | trailingCharacters
deriving DecidableEq, Repr

/-- A structured `ParsingError(char, msg)`: the offending character (a
string, `""` when absent) and the error kind standing for the message. -/
structure PErr where
  char : String
  kind : ErrKind
deriving DecidableEq, Repr

/-- Every way an evaluation can fail to return a value.  `perr` is a
`ParsingError` raised by the source; `pyException` marks an unstructured
Python exception escaping `parse` (e.g. `TypeError` from `float` applied
to a complex value); `notModelled` marks behaviour depending on a float
value this model does not track; `outOfFuel` is the fuel-exhaustion
artefact of the model (never reached by `parse`, which supplies enough
fuel). -/
inductive Fail where
  | perr (e : PErr)
  | pyException
  | notModelled
  | outOfFuel
deriving DecidableEq, Repr

/-- An exact rational as an unnormalised fraction of integers.  The
denominator of every fraction the evaluator builds is nonzero (division
is guarded by the zero test of source line 70 and inversion in `**` by
the zero-base test), but no normalisation is performed, so all
arithmetic is plain integer arithmetic. -/
structure Frac where
  num : ℤ
  den : ℤ
deriving DecidableEq, Repr

/-- The fraction holding the integer `n`. -/
def Frac.ofInt (n : ℤ) : Frac := ⟨n, 1⟩

/-- Value-level zero test: the Python `== 0` comparison. -/
def Frac.isZero (a : Frac) : Bool := a.num == 0

/-- Value-level integrality test: the Python `float(val).is_integer()`
of source line 97 (and the integrality branch of CPython `float_pow`). -/
def Frac.isInt (a : Frac) : Bool := a.num % a.den == 0

/-- Value-level negativity test: the Python `val < 0` comparison. -/
def Frac.isNeg (a : Frac) : Bool := a.num * a.den < 0

/-- The integer held by an integral fraction: the Python `int(val)` of
source line 99 (exact, since it is only applied when `isInt`). -/
def Frac.intVal (a : Frac) : ℤ := a.num / a.den

/-- Integer power with a natural exponent, by structural recursion so
that it kernel-reduces. -/
def ipow (a : ℤ) : ℕ → ℤ
  | 0 => 1
  | k + 1 => ipow a k * a

/-- The numeric accumulator.  `rat q` is a Python float (or int) holding
exactly the rational `q`; `approx` is a real float value not tracked
exactly (the result of an irrational power); `cplx` is a complex value
(Python 3 returns complex from `**` on a negative base with a
non-integral exponent). -/
inductive Val where
  | rat (q : Frac)
  | approx
  | cplx
deriving DecidableEq, Repr

/-- Addition on accumulator values (source line 51). -/
def vadd : Val → Val → Val
  | .rat a, .rat b => .rat ⟨a.num * b.den + b.num * a.den, a.den * b.den⟩
  | .cplx, _ => .cplx
  | _, .cplx => .cplx
  | _, _ => .approx

/-- Subtraction on accumulator values (source line 53). -/
def vsub : Val → Val → Val
  | .rat a, .rat b => .rat ⟨a.num * b.den - b.num * a.den, a.den * b.den⟩
  | .cplx, _ => .cplx
  | _, .cplx => .cplx
  | _, _ => .approx

/-- Multiplication on accumulator values (source line 68). -/
def vmul : Val → Val → Val
  | .rat a, .rat b => .rat ⟨a.num * b.num, a.den * b.den⟩
  | .cplx, _ => .cplx
  | _, .cplx => .cplx
  | _, _ => .approx

/-- Division on accumulator values (source line 72; only reached after
the `rhs == 0` check). -/
def vdiv : Val → Val → Val
  | .rat a, .rat b => .rat ⟨a.num * b.den, a.den * b.num⟩
  | .cplx, _ => .cplx
  | _, .cplx => .cplx
  | _, _ => .approx

/-- The `rhs == 0` test of source line 70.  Untracked (`approx`) and
complex values are treated as nonzero: exact real semantics makes an
irrational power nonzero, and the complex values reachable here are
nonzero. -/
def eqZero : Val → Bool
  | .rat q => q.isZero
  | _ => false

/-- The `val ** rhs` computation of source line 85, following CPython
`float_pow`: a zero base with a negative exponent raises
`ZeroDivisionError`, modelled as the error case that line 87 converts to
an invalid-power `ParsingError`; an integral exponent is computed
exactly; a non-integral exponent over a negative base returns a complex
number; a non-integral exponent over a non-negative base gives an
untracked real value.  Any operand already complex gives a complex
result, and any untracked operand gives an untracked result. -/
def vpow : Val → Val → Except Unit Val
  | .rat a, .rat b =>
    if a.isZero ∧ b.isNeg then .error ()
    else if b.isInt then
      let k := b.intVal
      if 0 ≤ k then .ok (.rat ⟨ipow a.num k.toNat, ipow a.den k.toNat⟩)
      else .ok (.rat ⟨ipow a.den (-k).toNat, ipow a.num (-k).toNat⟩)
    else
      if a.isNeg then .ok .cplx
      else .ok .approx
  | .cplx, _ => .ok .cplx
  | _, .cplx => .ok .cplx
  | _, _ => .ok .approx

/-- The per-call parser state: cursor position `i` and the set of used
digits (source lines 25, 27).  The used-digit set is modelled as a list
without duplicates (a digit is only added after the membership check). -/
structure PState where
  i : Nat
  used : List Char
deriving DecidableEq, Repr

/-- One character of lookahead, `_peek` (source line 30): `none` models
Python's empty-string end-of-input sentinel. -/
def peekAt (s : Text) (i : Nat) : Option Char := s.get? i

/-- The index reached from `i` by repeatedly skipping insignificant
characters; the fuel argument `n` makes the recursion structural and is
always called with `n = s.length`, which suffices because each step
consumes one character of `s`. -/
def skipFrom (s : Text) : Nat → Nat → Nat
  | 0, i => i
  | n + 1, i =>
    match s.get? i with
    | some c => if insignificant c then skipFrom s n (i + 1) else i
    | none => i

/-- The `_skip_spaces` method (source lines 37-39): advance the cursor
past whitespace and backquotes. -/
def skipSp (s : Text) (st : PState) : PState :=
  ⟨skipFrom s s.length st.i, st.used⟩

/-- A single character rendered as the Python one-character string used
in `ParsingError.char`. -/
def mkS (c : Char) : String := String.mk [c]

/-- The empty `ParsingError.char` string. -/
def noChar : String := String.mk []

/-- The `ParsingError.char` produced from `_peek`: the character at the
cursor, or the empty string at end of input. -/
def peekS (s : Text) (i : Nat) : String :=
  match s.get? i with
  | some c => mkS c
  | none => noChar

/-- The numeric value of an accepted digit character,
`float(int(digit))` of source line 126. -/
def digitVal (c : Char) : Val := .rat (Frac.ofInt ((c.toNat - 48 : ℕ) : ℤ))

mutual

/-- The method `parse_expression` (source lines 41-56):
`expression := term ((+|-) term)*`. -/
def parseExpr : Nat → Text → PState → Except Fail (Val × PState)
  | 0, _, _ => .error .outOfFuel
  | n + 1, s, st =>
    match parseTerm n s st with
    | .error e => .error e
    | .ok (v, st₁) => exprLoop n s v st₁

/-- The `while` loop of `parse_expression` (source lines 44-55): skip
insignificant characters, then consume `+` or `-` and a further term, or
stop. -/
def exprLoop : Nat → Text → Val → PState → Except Fail (Val × PState)
  | 0, _, _, _ => .error .outOfFuel
  | n + 1, s, v, st =>
    let st₁ := skipSp s st
    match s.get? st₁.i with
    | some '+' =>
      match parseTerm n s ⟨st₁.i + 1, st₁.used⟩ with
      | .error e => .error e
      | .ok (r, st₂) => exprLoop n s (vadd v r) st₂
    | some '-' =>
      match parseTerm n s ⟨st₁.i + 1, st₁.used⟩ with
      | .error e => .error e
      | .ok (r, st₂) => exprLoop n s (vsub v r) st₂
    | _ => .ok (v, st₁)

/-- The method `parse_term` (source lines 58-75):
`term := power ((*|/) power)*`. -/
def parseTerm : Nat → Text → PState → Except Fail (Val × PState)
  | 0, _, _ => .error .outOfFuel
  | n + 1, s, st =>
    match parsePower n s st with
    | .error e => .error e
    | .ok (v, st₁) => termLoop n s v st₁

/-- The `while` loop of `parse_term` (source lines 61-74), including the
zero-divisor check of line 70 that raises the division-by-zero error
with `/` as the offending character. -/
def termLoop : Nat → Text → Val → PState → Except Fail (Val × PState)
  | 0, _, _, _ => .error .outOfFuel
  | n + 1, s, v, st =>
    let st₁ := skipSp s st
    match s.get? st₁.i with
    | some '*' =>
      match parsePower n s ⟨st₁.i + 1, st₁.used⟩ with
      | .error e => .error e
      | .ok (r, st₂) => termLoop n s (vmul v r) st₂
    | some '/' =>
      match parsePower n s ⟨st₁.i + 1, st₁.used⟩ with
      | .error e => .error e
      | .ok (r, st₂) =>
        if eqZero r then .error (.perr ⟨mkS '/', .divisionByZero⟩)
        else termLoop n s (vdiv v r) st₂
    | _ => .ok (v, st₁)

/-- The method `parse_power` (source lines 77-88):
`power := factor (^ power)?`, right-associative because the right-hand
side recurses into `parse_power` itself; a failing `**` computation is
converted to the invalid-power error with `^` as the offending
character. -/
def parsePower : Nat → Text → PState → Except Fail (Val × PState)
  | 0, _, _ => .error .outOfFuel
  | n + 1, s, st =>
    match parseFactor n s st with
    | .error e => .error e
    | .ok (v, st₁) =>
      let st₂ := skipSp s st₁
      match s.get? st₂.i with
      | some '^' =>
        match parsePower n s ⟨st₂.i + 1, st₂.used⟩ with
        | .error e => .error e
        | .ok (r, st₃) =>
          match vpow v r with
          | .ok w => .ok (w, st₃)
          | .error _ => .error (.perr ⟨mkS '^', .invalidPower⟩)
      | _ => .ok (v, st₂)

/-- The method `parse_factor` (source lines 90-105):
`factor := primary (!)*`. -/
def parseFactor : Nat → Text → PState → Except Fail (Val × PState)
  | 0, _, _ => .error .outOfFuel
  | n + 1, s, st =>
    match parsePrimary n s st with
    | .error e => .error e
    | .ok (v, st₁) => factLoop n s v st₁

/-- The `while` loop of `parse_factor` (source lines 93-104): for each
postfix `!`, the accumulated value must be a non-negative whole number
(source line 97, checked on the value, not the digit alphabet),
otherwise the invalid-factorial error with `!` as offending character is
raised; on success `math.factorial` is applied and the loop continues.
An untracked value aborts with the model marker; a complex value makes
source line 97's `float(val)` raise an uncaught `TypeError`. -/
def factLoop : Nat → Text → Val → PState → Except Fail (Val × PState)
  | 0, _, _, _ => .error .outOfFuel
  | n + 1, s, v, st =>
    let st₁ := skipSp s st
    match s.get? st₁.i with
    | some '!' =>
      match v with
      | .rat q =>
        if ¬q.isInt ∨ q.isNeg then .error (.perr ⟨mkS '!', .invalidFactorial⟩)
        else factLoop n s (.rat (Frac.ofInt (Nat.factorial q.intVal.toNat : ℕ))) ⟨st₁.i + 1, st₁.used⟩
      | .approx => .error .notModelled
      | .cplx => .error .pyException
    | _ => .ok (v, st₁)

/-- The method `parse_primary` (source lines 107-129):
`primary := DIGIT | ( expression )`.  A parenthesised sub-expression
shares the same state (cursor and used-digit set) as the outer parse; a
digit must be in the allowed alphabet and not already used, and on
acceptance is recorded in the used set.  (The source tests `ch == ""`
after `ch.isdigit()`; the order is immaterial since the end-of-input
sentinel is neither `(` nor a digit.) -/
def parsePrimary : Nat → Text → PState → Except Fail (Val × PState)
  | 0, _, _ => .error .outOfFuel
  | n + 1, s, st =>
    let st₁ := skipSp s st
    match s.get? st₁.i with
    | none => .error (.perr ⟨noChar, .unexpectedEnd⟩)
    | some c =>
      if c = '(' then
        match parseExpr n s ⟨st₁.i + 1, st₁.used⟩ with
        | .error e => .error e
        | .ok (v, st₂) =>
          let st₃ := skipSp s st₂
          match s.get? st₃.i with
          | some ')' => .ok (v, ⟨st₃.i + 1, st₃.used⟩)
          | _ => .error (.perr ⟨mkS ')', .missingClosingParen⟩)
      else if c.isDigit then
        if c ∉ allowedDigits then .error (.perr ⟨mkS c, .disallowedDigit⟩)
        else if c ∈ st₁.used then .error (.perr ⟨mkS c, .duplicateDigit⟩)
        else .ok (digitVal c, ⟨st₁.i + 1, c :: st₁.used⟩)
      else .error (.perr ⟨mkS c, .disallowedCharacter⟩)

end

/-- The final result of `parse` (source lines 155-158): a whole-valued
float (or an int from `math.factorial`) is reported as a Python int, a
fractional float as a float, and any other value (complex, or untracked)
is returned unchanged. -/
inductive PyResult where
  | pyInt (n : ℤ)
  | pyFloat (q : Frac)
  | pyOther (v : Val)
deriving DecidableEq, Repr

/-- The result normalisation of source lines 156-158: an integral value
is reported as a Python int (either by the `is_integer` conversion of
line 157 or because it already is an int produced by `math.factorial`),
anything else is returned unchanged. -/
def normalize : Val → PyResult
  | .rat q => if q.isInt then .pyInt q.intVal else .pyFloat q
  | v => .pyOther v

/-- Fuel supplied by the top-level parse: six units per input character
plus a constant bounds the depth of the call tree, since every six
levels of nesting consume at least one character. -/
def fuelFor (s : Text) : Nat := 6 * s.length + 6

/-- The top-level function `parse` (source lines 131-158): skip leading
insignificant characters and fail on empty input; parse one expression;
fail on trailing characters, reporting the first unconsumed one;
normalise the result. -/
def parse (s : Text) : Except Fail PyResult :=
  let st₀ := skipSp s ⟨0, []⟩
  if s.length ≤ st₀.i then .error (.perr ⟨noChar, .emptyInput⟩)
  else
    match parseExpr (fuelFor s) s st₀ with
    | .error e => .error e
    | .ok (v, st₁) =>
      let st₂ := skipSp s st₁
      if st₂.i ≠ s.length then .error (.perr ⟨peekS s st₂.i, .trailingCharacters⟩)
      else .ok (normalize v)

deriving instance DecidableEq for Except

/-- Position facts for one parser step: a successful result never moves
the cursor backwards and never moves it past the end of the input. -/
def PosOk (s : Text) (st : PState) (r : Except Fail (Val × PState)) : Prop :=
  ∀ v st', r = .ok (v, st') → st.i ≤ st'.i ∧ st'.i ≤ s.length
/-- Soundness of the used-digit set: every recorded digit occurs among
the already-consumed characters and belongs to the allowed alphabet. -/
def UsedOk (s : Text) (st : PState) : Prop :=
  ∀ c ∈ st.used, c ∈ s.take st.i ∧ c ∈ allowedDigits
/-- Digit-error classification for a step result: a duplicate-digit
error names an allowed digit occurring at least twice in the input, and
a disallowed-digit error names a digit character outside the allowed
alphabet occurring in the input. -/
def ErrOkD {α : Type} (s : Text) (r : Except Fail α) : Prop :=
  ∀ pe, r = .error (.perr pe) →
    (pe.kind = .duplicateDigit → ∃ c, pe.char = mkS c ∧ c ∈ allowedDigits ∧ 2 ≤ s.count c) ∧
    (pe.kind = .disallowedDigit → ∃ c, pe.char = mkS c ∧ c.isDigit ∧ c ∉ allowedDigits ∧ c ∈ s)
/-- Digit facts for one parser step: used-digit soundness is preserved
on success, and digit-related errors are correctly classified. -/
def DigOk (s : Text) (r : Except Fail (Val × PState)) : Prop :=
  (∀ v st', r = .ok (v, st') → UsedOk s st') ∧ ErrOkD s r
/-- Characterisation of the index where skipping insignificant
characters stops: it is at or after the start, everything strictly
before it (from the start) is insignificant, and the character at it (if
any) is significant. -/
def IsSkip (s : Text) (i j : Nat) : Prop :=
  i ≤ j ∧ (∀ k, i ≤ k → k < j → ∃ c, s.get? k = some c ∧ insignificant c = true) ∧
    (∀ c, s.get? j = some c → insignificant c = false)
/-- An input is digit-clean when every digit character it contains lies
in the allowed alphabet and no allowed digit occurs more than once. -/
def goodDigits (s : Text) : Prop :=
  (∀ c ∈ s, c.isDigit = true → c ∈ allowedDigits) ∧ ∀ c ∈ allowedDigits, s.count c ≤ 1

/-- Skipping never moves the cursor backwards. -/
theorem skipFrom_le (s : Text) : ∀ n i, i ≤ skipFrom s n i := by
  intro n
  induction n with
  | zero => intro i; simp [skipFrom]
  | succ n ih =>
    intro i
    rw [skipFrom]
    cases h : s.get? i with
    | none => exact Nat.le_refl i
    | some c =>
      by_cases hc : insignificant c
      · simp only [hc, if_true]
        exact Nat.le_trans (Nat.le_succ i) (ih (i + 1))
      · simp [hc]

/-- Skipping never moves the cursor past the end of the input. -/
theorem skipFrom_le_length (s : Text) : ∀ n i, i ≤ s.length → skipFrom s n i ≤ s.length := by
  intro n
  induction n with
  | zero => intro i hi; simpa [skipFrom] using hi
  | succ n ih =>
    intro i hi
    rw [skipFrom]
    cases h : s.get? i with
    | none => exact hi
    | some c =>
      by_cases hc : insignificant c
      · simp only [hc, if_true]
        exact ih (i + 1) (Nat.succ_le_of_lt (List.get?_eq_some.mp h).1)
      · simpa [hc] using hi

/-- The `_skip_spaces` method never moves the cursor backwards. -/
theorem skipSp_le (s : Text) (st : PState) : st.i ≤ (skipSp s st).i :=
  skipFrom_le s s.length st.i

/-- The `_skip_spaces` method never moves the cursor past the end. -/
theorem skipSp_le_length (s : Text) (st : PState) (h : st.i ≤ s.length) :
    (skipSp s st).i ≤ s.length :=
  skipFrom_le_length s s.length st.i h

/-- The `_skip_spaces` method leaves the used-digit set unchanged. -/
theorem skipSp_used (s : Text) (st : PState) : (skipSp s st).used = st.used := rfl

theorem posMaster (n : Nat) (s : Text) :
    (∀ st, st.i ≤ s.length → PosOk s st (parseExpr n s st)) ∧
    (∀ v₀ st, st.i ≤ s.length → PosOk s st (exprLoop n s v₀ st)) ∧
    (∀ st, st.i ≤ s.length → PosOk s st (parseTerm n s st)) ∧
    (∀ v₀ st, st.i ≤ s.length → PosOk s st (termLoop n s v₀ st)) ∧
    (∀ st, st.i ≤ s.length → PosOk s st (parsePower n s st)) ∧
    (∀ st, st.i ≤ s.length → PosOk s st (parseFactor n s st)) ∧
    (∀ v₀ st, st.i ≤ s.length → PosOk s st (factLoop n s v₀ st)) ∧
    (∀ st, st.i ≤ s.length → PosOk s st (parsePrimary n s st)) := by
  induction n with
  | zero =>
    refine ⟨?_, ?_, ?_, ?_, ?_, ?_, ?_, ?_⟩ <;>
      first
      | (intro st _ v st' h; simp [parseExpr, parseTerm, parsePower, parseFactor, parsePrimary] at h)
      | (intro v₀ st _ v st' h; simp [exprLoop, termLoop, factLoop] at h)
  | succ n ih =>
    obtain ⟨ihE, ihEL, ihT, ihTL, ihP, ihF, ihFL, ihPr⟩ := ih
    have hEL : ∀ v₀ st, st.i ≤ s.length → PosOk s st (exprLoop (n + 1) s v₀ st) := by
      intro v₀ st hst v st' h
      have hsk := skipSp_le s st
      have hskl := skipSp_le_length s st hst
      simp only [exprLoop] at h
      split at h
      · rename_i heq
        have hlt : (skipSp s st).i < s.length := (List.get?_eq_some.mp heq).1
        split at h
        · simp at h
        · rename_i r st₂ hT
          have h₁ := ihT ⟨(skipSp s st).i + 1, (skipSp s st).used⟩
            (by show (skipSp s st).i + 1 ≤ s.length; omega) r st₂ hT
          have h₁l : (skipSp s st).i + 1 ≤ st₂.i := h₁.1
          have h₂ := ihEL _ st₂ h₁.2 v st' h
          exact ⟨by omega, h₂.2⟩
      · rename_i heq
        have hlt : (skipSp s st).i < s.length := (List.get?_eq_some.mp heq).1
        split at h
        · simp at h
        · rename_i r st₂ hT
          have h₁ := ihT ⟨(skipSp s st).i + 1, (skipSp s st).used⟩
            (by show (skipSp s st).i + 1 ≤ s.length; omega) r st₂ hT
          have h₁l : (skipSp s st).i + 1 ≤ st₂.i := h₁.1
          have h₂ := ihEL _ st₂ h₁.2 v st' h
          exact ⟨by omega, h₂.2⟩
      · injection h with h₁
        injection h₁ with hv hs
        subst hs
        exact ⟨hsk, hskl⟩
    have hTL : ∀ v₀ st, st.i ≤ s.length → PosOk s st (termLoop (n + 1) s v₀ st) := by
      intro v₀ st hst v st' h
      have hsk := skipSp_le s st
      have hskl := skipSp_le_length s st hst
      simp only [termLoop] at h
      split at h
      · rename_i heq
        have hlt : (skipSp s st).i < s.length := (List.get?_eq_some.mp heq).1
        split at h
        · simp at h
        · rename_i r st₂ hT
          have h₁ := ihP ⟨(skipSp s st).i + 1, (skipSp s st).used⟩
            (by show (skipSp s st).i + 1 ≤ s.length; omega) r st₂ hT
          have h₁l : (skipSp s st).i + 1 ≤ st₂.i := h₁.1
          have h₂ := ihTL _ st₂ h₁.2 v st' h
          exact ⟨by omega, h₂.2⟩
      · rename_i heq
        have hlt : (skipSp s st).i < s.length := (List.get?_eq_some.mp heq).1
        split at h
        · simp at h
        · rename_i r st₂ hT
          have h₁ := ihP ⟨(skipSp s st).i + 1, (skipSp s st).used⟩
            (by show (skipSp s st).i + 1 ≤ s.length; omega) r st₂ hT
          have h₁l : (skipSp s st).i + 1 ≤ st₂.i := h₁.1
          split at h
          · simp at h
          · have h₂ := ihTL _ st₂ h₁.2 v st' h
            exact ⟨by omega, h₂.2⟩
      · injection h with h₁
        injection h₁ with hv hs
        subst hs
        exact ⟨hsk, hskl⟩
    have hP : ∀ st, st.i ≤ s.length → PosOk s st (parsePower (n + 1) s st) := by
      intro st hst v st' h
      simp only [parsePower] at h
      split at h
      · simp at h
      · rename_i v₁ st₁ hF
        have h₁ := ihF st hst v₁ st₁ hF
        have hsk := skipSp_le s st₁
        have hskl := skipSp_le_length s st₁ h₁.2
        split at h
        · rename_i heq
          have hlt : (skipSp s st₁).i < s.length := (List.get?_eq_some.mp heq).1
          split at h
          · simp at h
          · rename_i r st₃ hR
            have h₂ := ihP ⟨(skipSp s st₁).i + 1, (skipSp s st₁).used⟩
              (by show (skipSp s st₁).i + 1 ≤ s.length; omega) r st₃ hR
            have h₂l : (skipSp s st₁).i + 1 ≤ st₃.i := h₂.1
            split at h
            · injection h with h₃
              injection h₃ with hv hs
              subst hs
              exact ⟨by omega, h₂.2⟩
            · simp at h
        · injection h with h₁'
          injection h₁' with hv hs
          subst hs
          exact ⟨by omega, hskl⟩
    have hFL : ∀ v₀ st, st.i ≤ s.length → PosOk s st (factLoop (n + 1) s v₀ st) := by
      intro v₀ st hst v st' h
      have hsk := skipSp_le s st
      have hskl := skipSp_le_length s st hst
      simp only [factLoop] at h
      split at h
      · rename_i heq
        have hlt : (skipSp s st).i < s.length := (List.get?_eq_some.mp heq).1
        split at h
        · rename_i q
          split at h
          · simp at h
          · have h₂ := ihFL _ ⟨(skipSp s st).i + 1, (skipSp s st).used⟩
              (by show (skipSp s st).i + 1 ≤ s.length; omega) v st' h
            have h₂l : (skipSp s st).i + 1 ≤ st'.i := h₂.1
            exact ⟨by omega, h₂.2⟩
        · simp at h
        · simp at h
      · injection h with h₁
        injection h₁ with hv hs
        subst hs
        exact ⟨hsk, hskl⟩
    have hPr : ∀ st, st.i ≤ s.length → PosOk s st (parsePrimary (n + 1) s st) := by
      intro st hst v st' h
      have hsk := skipSp_le s st
      have hskl := skipSp_le_length s st hst
      simp only [parsePrimary] at h
      split at h
      · simp at h
      · rename_i c heq
        have hlt : (skipSp s st).i < s.length := (List.get?_eq_some.mp heq).1
        split at h
        · split at h
          · simp at h
          · rename_i v₂ st₂ hEI
            have h₁ := ihE ⟨(skipSp s st).i + 1, (skipSp s st).used⟩
              (by show (skipSp s st).i + 1 ≤ s.length; omega) v₂ st₂ hEI
            have h₁l : (skipSp s st).i + 1 ≤ st₂.i := h₁.1
            have hsk₂ := skipSp_le s st₂
            have hskl₂ := skipSp_le_length s st₂ h₁.2
            split at h
            · rename_i heq₂
              have hlt₂ : (skipSp s st₂).i < s.length := (List.get?_eq_some.mp heq₂).1
              injection h with h₃
              injection h₃ with hv hs
              subst hs
              refine ⟨?_, ?_⟩
              · show st.i ≤ (skipSp s st₂).i + 1
                omega
              · show (skipSp s st₂).i + 1 ≤ s.length
                omega
            · simp at h
        · split at h
          · split at h
            · simp at h
            · split at h
              · simp at h
              · injection h with h₃
                injection h₃ with hv hs
                subst hs
                refine ⟨?_, ?_⟩
                · show st.i ≤ (skipSp s st).i + 1
                  omega
                · show (skipSp s st).i + 1 ≤ s.length
                  omega
          · simp at h
    have hF : ∀ st, st.i ≤ s.length → PosOk s st (parseFactor (n + 1) s st) := by
      intro st hst v st' h
      simp only [parseFactor] at h
      split at h
      · simp at h
      · rename_i v₁ st₁ hPr'
        have h₁ := ihPr st hst v₁ st₁ hPr'
        have h₂ := ihFL v₁ st₁ h₁.2 v st' h
        exact ⟨Nat.le_trans h₁.1 h₂.1, h₂.2⟩
    have hT : ∀ st, st.i ≤ s.length → PosOk s st (parseTerm (n + 1) s st) := by
      intro st hst v st' h
      simp only [parseTerm] at h
      split at h
      · simp at h
      · rename_i v₁ st₁ hP'
        have h₁ := ihP st hst v₁ st₁ hP'
        have h₂ := ihTL v₁ st₁ h₁.2 v st' h
        exact ⟨Nat.le_trans h₁.1 h₂.1, h₂.2⟩
    have hE : ∀ st, st.i ≤ s.length → PosOk s st (parseExpr (n + 1) s st) := by
      intro st hst v st' h
      simp only [parseExpr] at h
      split at h
      · simp at h
      · rename_i v₁ st₁ hT'
        have h₁ := ihT st hst v₁ st₁ hT'
        have h₂ := ihEL v₁ st₁ h₁.2 v st' h
        exact ⟨Nat.le_trans h₁.1 h₂.1, h₂.2⟩
    exact ⟨hE, hEL, hT, hTL, hP, hF, hFL, hPr⟩

/-- Membership in a take is preserved when taking more. -/
theorem mem_take_mono {c : Char} {l : Text} {i j : Nat} (hij : i ≤ j) (h : c ∈ l.take i) :
    c ∈ l.take j := by
  have ht : l.take i = (l.take j).take i := by rw [List.take_take, Nat.min_eq_left hij]
  rw [ht] at h
  exact List.mem_of_mem_take h

/-- The character at index `i` is in the first `i + 1` characters. -/
theorem mem_take_succ {c : Char} {l : Text} {i : Nat} (h : l.get? i = some c) :
    c ∈ l.take (i + 1) := by
  have h' : (l.take (i + 1)).get? i = some c := by
    rw [List.get?_take (Nat.lt_succ_self i)]
    exact h
  exact List.get?_mem h'

/-- A character both strictly before index `i` and at index `i` occurs at
least twice. -/
theorem count_two {c : Char} {l : Text} {i : Nat} (h₁ : c ∈ l.take i)
    (h₂ : l.get? i = some c) : 2 ≤ l.count c := by
  have hsplit : l = l.take i ++ l.drop i := (List.take_append_drop i l).symm
  have hc₁ : 1 ≤ (l.take i).count c := List.count_pos_iff_mem.mpr h₁
  have hd : (l.drop i).get? 0 = some c := by
    rw [List.get?_drop]
    simpa using h₂
  have hc₂ : 1 ≤ (l.drop i).count c := List.count_pos_iff_mem.mpr (List.get?_mem hd)
  calc 2 ≤ (l.take i).count c + (l.drop i).count c := by omega
  _ = l.count c := by rw [← List.count_append, ← hsplit]

theorem usedOk_bump {s : Text} {st : PState} {j : Nat} (hu : UsedOk s st) (hj : st.i ≤ j) :
    UsedOk s ⟨j, st.used⟩ :=
  fun c hc => ⟨mem_take_mono hj (hu c hc).1, (hu c hc).2⟩

theorem usedOk_skip {s : Text} {st : PState} (hu : UsedOk s st) : UsedOk s (skipSp s st) :=
  usedOk_bump hu (skipSp_le s st)

theorem digOk_error {s : Text} {b : Fail}
    (h : ErrOkD s (Except.error (α := Val × PState) b)) :
    DigOk s (.error b) :=
  ⟨fun _ _ hv => by simp at hv, h⟩

/-- An error's digit classification does not depend on the value type of
the `Except`. -/
theorem errOkD_cast {α β : Type} {s : Text} {b : Fail}
    (h : ErrOkD s (Except.error (α := α) b)) :
    ErrOkD s (Except.error (α := β) b) := by
  intro pe hpe
  injection hpe with hb
  exact h pe (by rw [hb])

theorem digOk_ok {s : Text} {v : Val} {st' : PState} (h : UsedOk s st') :
    DigOk s (.ok (v, st')) := by
  refine ⟨fun v₁ st₁ hv => ?_, fun pe hpe => by simp at hpe⟩
  injection hv with h₁
  injection h₁ with _ h₂
  exact h₂ ▸ h

theorem errOkD_ofKind {α : Type} {s : Text} {ch : String} {k : ErrKind}
    (h₁ : k ≠ ErrKind.duplicateDigit) (h₂ : k ≠ ErrKind.disallowedDigit) :
    ErrOkD s (Except.error (α := α) (.perr ⟨ch, k⟩)) := by
  intro pe hpe
  injection hpe with hb
  injection hb with hc
  cases hc
  exact ⟨fun hd => absurd hd h₁, fun hd => absurd hd h₂⟩

theorem errOkD_nonPerr {α : Type} {s : Text} {b : Fail} (h : ∀ pe, b ≠ Fail.perr pe) :
    ErrOkD s (Except.error (α := α) b) := by
  intro pe hpe
  injection hpe with hb
  exact absurd hb (h pe)

theorem digMaster (n : Nat) (s : Text) :
    (∀ st, UsedOk s st → DigOk s (parseExpr n s st)) ∧
    (∀ v₀ st, UsedOk s st → DigOk s (exprLoop n s v₀ st)) ∧
    (∀ st, UsedOk s st → DigOk s (parseTerm n s st)) ∧
    (∀ v₀ st, UsedOk s st → DigOk s (termLoop n s v₀ st)) ∧
    (∀ st, UsedOk s st → DigOk s (parsePower n s st)) ∧
    (∀ st, UsedOk s st → DigOk s (parseFactor n s st)) ∧
    (∀ v₀ st, UsedOk s st → DigOk s (factLoop n s v₀ st)) ∧
    (∀ st, UsedOk s st → DigOk s (parsePrimary n s st)) := by
  induction n with
  | zero =>
    have hz : DigOk s (.error Fail.outOfFuel) :=
      digOk_error (errOkD_nonPerr fun pe h => by cases h)
    exact ⟨fun st _ => hz, fun v₀ st _ => hz, fun st _ => hz, fun v₀ st _ => hz,
      fun st _ => hz, fun st _ => hz, fun v₀ st _ => hz, fun st _ => hz⟩
  | succ n ih =>
    obtain ⟨ihE, ihEL, ihT, ihTL, ihP, ihF, ihFL, ihPr⟩ := ih
    have hEL : ∀ v₀ st, UsedOk s st → DigOk s (exprLoop (n + 1) s v₀ st) := by
      intro v₀ st hu
      have hu₁ : UsedOk s (skipSp s st) := usedOk_skip hu
      simp only [exprLoop]
      split
      · have ih := ihT ⟨(skipSp s st).i + 1, (skipSp s st).used⟩ (usedOk_bump hu₁ (Nat.le_succ _))
        split
        · rename_i e heq
          exact digOk_error (heq ▸ ih.2)
        · rename_i r st₂ heq
          exact ihEL (vadd v₀ r) st₂ (ih.1 r st₂ heq)
      · have ih := ihT ⟨(skipSp s st).i + 1, (skipSp s st).used⟩ (usedOk_bump hu₁ (Nat.le_succ _))
        split
        · rename_i e heq
          exact digOk_error (heq ▸ ih.2)
        · rename_i r st₂ heq
          exact ihEL (vsub v₀ r) st₂ (ih.1 r st₂ heq)
      · exact digOk_ok hu₁
    have hTL : ∀ v₀ st, UsedOk s st → DigOk s (termLoop (n + 1) s v₀ st) := by
      intro v₀ st hu
      have hu₁ : UsedOk s (skipSp s st) := usedOk_skip hu
      simp only [termLoop]
      split
      · have ih := ihP ⟨(skipSp s st).i + 1, (skipSp s st).used⟩ (usedOk_bump hu₁ (Nat.le_succ _))
        split
        · rename_i e heq
          exact digOk_error (heq ▸ ih.2)
        · rename_i r st₂ heq
          exact ihTL (vmul v₀ r) st₂ (ih.1 r st₂ heq)
      · have ih := ihP ⟨(skipSp s st).i + 1, (skipSp s st).used⟩ (usedOk_bump hu₁ (Nat.le_succ _))
        split
        · rename_i e heq
          exact digOk_error (heq ▸ ih.2)
        · rename_i r st₂ heq
          split
          · exact digOk_error (errOkD_ofKind (by decide) (by decide))
          · exact ihTL (vdiv v₀ r) st₂ (ih.1 r st₂ heq)
      · exact digOk_ok hu₁
    have hP : ∀ st, UsedOk s st → DigOk s (parsePower (n + 1) s st) := by
      intro st hu
      simp only [parsePower]
      split
      · rename_i e heq
        exact digOk_error (heq ▸ (ihF st hu).2)
      · rename_i v₁ st₁ heq
        have hu₁ : UsedOk s st₁ := (ihF st hu).1 v₁ st₁ heq
        have hu₂ := usedOk_skip hu₁
        split
        · have ih := ihP ⟨(skipSp s st₁).i + 1, (skipSp s st₁).used⟩ (usedOk_bump hu₂ (Nat.le_succ _))
          split
          · rename_i e₂ heq₂
            exact digOk_error (heq₂ ▸ ih.2)
          · rename_i r st₃ heq₂
            have hu₄ := ih.1 r st₃ heq₂
            split
            · exact digOk_ok hu₄
            · exact digOk_error (errOkD_ofKind (by decide) (by decide))
        · exact digOk_ok hu₂
    have hFL : ∀ v₀ st, UsedOk s st → DigOk s (factLoop (n + 1) s v₀ st) := by
      intro v₀ st hu
      have hu₁ := usedOk_skip hu
      simp only [factLoop]
      split
      · split
        · split
          · exact digOk_error (errOkD_ofKind (by decide) (by decide))
          · exact ihFL _ ⟨(skipSp s st).i + 1, (skipSp s st).used⟩ (usedOk_bump hu₁ (Nat.le_succ _))
        · exact digOk_error (errOkD_nonPerr fun pe h => by cases h)
        · exact digOk_error (errOkD_nonPerr fun pe h => by cases h)
      · exact digOk_ok hu₁
    have hPr : ∀ st, UsedOk s st → DigOk s (parsePrimary (n + 1) s st) := by
      intro st hu
      have hu₁ := usedOk_skip hu
      simp only [parsePrimary]
      split
      · exact digOk_error (errOkD_ofKind (by decide) (by decide))
      · rename_i c heq
        split
        · have ih := ihE ⟨(skipSp s st).i + 1, (skipSp s st).used⟩ (usedOk_bump hu₁ (Nat.le_succ _))
          split
          · rename_i e heq₂
            exact digOk_error (heq₂ ▸ ih.2)
          · rename_i v₂ st₂ heq₂
            have hu₃ := usedOk_skip (ih.1 v₂ st₂ heq₂)
            split
            · exact digOk_ok (usedOk_bump hu₃ (Nat.le_succ _))
            · exact digOk_error (errOkD_ofKind (by decide) (by decide))
        · split
          · rename_i hnp hdig
            split
            · rename_i hna
              refine digOk_error ?_
              intro pe hpe
              injection hpe with hb
              injection hb with hc
              cases hc
              exact ⟨fun hd => by simp at hd,
                fun _ => ⟨c, rfl, hdig, hna, List.get?_mem heq⟩⟩
            · rename_i hna
              split
              · rename_i hin
                have hfacts := hu₁ c hin
                refine digOk_error ?_
                intro pe hpe
                injection hpe with hb
                injection hb with hc
                cases hc
                exact ⟨fun _ => ⟨c, rfl, hfacts.2, count_two hfacts.1 heq⟩,
                  fun hd => by simp at hd⟩
              · rename_i hin
                refine digOk_ok ?_
                intro c' hc'
                rcases List.mem_cons.mp hc' with rfl | hc''
                · exact ⟨mem_take_succ heq, not_not.mp hna⟩
                · have hf := hu₁ c' hc''
                  exact ⟨mem_take_mono (Nat.le_succ _) hf.1, hf.2⟩
          · exact digOk_error (errOkD_ofKind (by decide) (by decide))
    have hF : ∀ st, UsedOk s st → DigOk s (parseFactor (n + 1) s st) := by
      intro st hu
      simp only [parseFactor]
      split
      · rename_i e heq
        exact digOk_error (heq ▸ (ihPr st hu).2)
      · rename_i v₁ st₁ heq
        exact ihFL v₁ st₁ ((ihPr st hu).1 v₁ st₁ heq)
    have hT : ∀ st, UsedOk s st → DigOk s (parseTerm (n + 1) s st) := by
      intro st hu
      simp only [parseTerm]
      split
      · rename_i e heq
        exact digOk_error (heq ▸ (ihP st hu).2)
      · rename_i v₁ st₁ heq
        exact ihTL v₁ st₁ ((ihP st hu).1 v₁ st₁ heq)
    have hE : ∀ st, UsedOk s st → DigOk s (parseExpr (n + 1) s st) := by
      intro st hu
      simp only [parseExpr]
      split
      · rename_i e heq
        exact digOk_error (heq ▸ (ihT st hu).2)
      · rename_i v₁ st₁ heq
        exact ihEL v₁ st₁ ((ihT st hu).1 v₁ st₁ heq)
    exact ⟨hE, hEL, hT, hTL, hP, hF, hFL, hPr⟩

/-- Digit-error classification lifted to the top-level `parse`. -/
theorem parse_errOkD (s : Text) : ErrOkD s (parse s) := by
  simp only [parse]
  split
  · exact errOkD_ofKind (by decide) (by decide)
  · split
    · rename_i e heq
      have h := ((digMaster (fuelFor s) s).1 (skipSp s ⟨0, []⟩) (fun c hc => by cases hc)).2
      rw [heq] at h
      exact errOkD_cast h
    · rename_i v st₁ heq
      split
      · exact errOkD_ofKind (by decide) (by decide)
      · intro pe hpe
        simp at hpe

theorem isSkip_unique {s : Text} {i j j' : Nat} (h : IsSkip s i j) (h' : IsSkip s i j') :
    j = j' := by
  by_contra hne
  rcases Nat.lt_or_ge j j' with hlt | hge
  · obtain ⟨c, hc, hins⟩ := h'.2.1 j h.1 hlt
    have hstop := h.2.2 c hc
    rw [hstop] at hins
    cases hins
  · have hlt' : j' < j := Nat.lt_of_le_of_ne hge (fun he => hne he.symm)
    obtain ⟨c, hc, hins⟩ := h.2.1 j' h'.1 hlt'
    have hstop := h'.2.2 c hc
    rw [hstop] at hins
    cases hins

theorem skipFrom_isSkip (s : Text) : ∀ n i, s.length ≤ i + n → IsSkip s i (skipFrom s n i) := by
  intro n
  induction n with
  | zero =>
    intro i hi
    simp only [skipFrom]
    refine ⟨Nat.le_refl i, fun k hk hk' => absurd hk' (by omega), fun c hc => ?_⟩
    have := (List.get?_eq_some.mp hc).1
    omega
  | succ n ih =>
    intro i hi
    cases hgi : s.get? i with
    | none =>
      have hred : skipFrom s (n + 1) i = i := by rw [skipFrom, hgi]
      rw [hred]
      refine ⟨Nat.le_refl i, fun k hk hk' => absurd hk' (by omega), fun c hc => ?_⟩
      rw [hgi] at hc
      cases hc
    | some c =>
      by_cases hc : insignificant c
      · have hred : skipFrom s (n + 1) i = skipFrom s n (i + 1) := by
          rw [skipFrom, hgi]
          exact if_pos hc
        rw [hred]
        have hrec := ih (i + 1) (by omega)
        have hrec₁ := hrec.1
        refine ⟨by omega, fun k hk hk' => ?_, hrec.2.2⟩
        rcases Nat.eq_or_lt_of_le hk with rfl | hk₂
        · exact ⟨c, hgi, hc⟩
        · exact hrec.2.1 k hk₂ hk'
      · have hred : skipFrom s (n + 1) i = i := by
          rw [skipFrom, hgi]
          exact if_neg hc
        rw [hred]
        refine ⟨Nat.le_refl i, fun k hk hk' => absurd hk' (by omega), fun c' hc' => ?_⟩
        rw [hgi] at hc'
        injection hc' with he
        subst he
        simp only [Bool.not_eq_true] at hc
        exact hc

theorem get?_append_left {s : Text} {d : Char} {j : Nat} (hj : j < s.length) :
    (s ++ [d]).get? j = s.get? j := List.get?_append hj

theorem get?_append_last (s : Text) (d : Char) : (s ++ [d]).get? s.length = some d :=
  List.get?_concat_length s d

theorem isSkip_append {s : Text} {d : Char} {i j : Nat} (h : IsSkip s i j)
    (hj : j ≤ s.length) (hd : insignificant d = false) : IsSkip (s ++ [d]) i j := by
  refine ⟨h.1, fun k hk hk' => ?_, fun c hc => ?_⟩
  · obtain ⟨c, hc, hins⟩ := h.2.1 k hk hk'
    refine ⟨c, ?_, hins⟩
    rw [get?_append_left (List.get?_eq_some.mp hc).1]
    exact hc
  · rcases Nat.lt_or_ge j s.length with hlt | hge
    · rw [get?_append_left hlt] at hc
      exact h.2.2 c hc
    · have hj' : j = s.length := Nat.le_antisymm hj hge
      subst hj'
      rw [get?_append_last] at hc
      injection hc with hc'
      subst hc'
      exact hd

theorem skipSp_append {s : Text} {d : Char} {st : PState} (hst : st.i ≤ s.length)
    (hd : insignificant d = false) : skipSp (s ++ [d]) st = skipSp s st := by
  have h1 : IsSkip s st.i (skipFrom s s.length st.i) :=
    skipFrom_isSkip s s.length st.i (by omega)
  have hle : skipFrom s s.length st.i ≤ s.length := skipFrom_le_length s s.length st.i hst
  have h2 : IsSkip (s ++ [d]) st.i (skipFrom s s.length st.i) := isSkip_append h1 hle hd
  have h3 : IsSkip (s ++ [d]) st.i (skipFrom (s ++ [d]) (s ++ [d]).length st.i) := by
    apply skipFrom_isSkip
    simp only [List.length_append, List.length_cons, List.length_nil]
    omega
  have heq := isSkip_unique h3 h2
  simp only [skipSp]
  rw [heq]

/-- An allowed digit is significant and is not an operator, parenthesis,
or any other character the grammar treats specially. -/
theorem allowed_char_facts {d : Char} (hd : d ∈ allowedDigits) :
    insignificant d = false ∧ d.isDigit = true ∧ d ≠ '+' ∧ d ≠ '-' ∧ d ≠ '*' ∧ d ≠ '/' ∧
      d ≠ '^' ∧ d ≠ '!' ∧ d ≠ ')' ∧ d ≠ '(' := by
  fin_cases hd <;> refine ⟨rfl, rfl, ?_, ?_, ?_, ?_, ?_, ?_, ?_, ?_⟩ <;> decide

/-- Appending one allowed digit to the input does not disturb any
successful run of the grammar functions that stays within the original
input, even at larger fuel: the run never consumes past the original
end, and every peek at the original end sees the appended digit, which
no grammar loop treats as an operator or as significant whitespace. -/
theorem extMaster (d : Char) (hd : d ∈ allowedDigits) (s : Text) (n : Nat) :
    (∀ m st v st', n ≤ m → st.i ≤ s.length → parseExpr n s st = .ok (v, st') →
      parseExpr m (s ++ [d]) st = .ok (v, st')) ∧
    (∀ m v₀ st v st', n ≤ m → st.i ≤ s.length → exprLoop n s v₀ st = .ok (v, st') →
      exprLoop m (s ++ [d]) v₀ st = .ok (v, st')) ∧
    (∀ m st v st', n ≤ m → st.i ≤ s.length → parseTerm n s st = .ok (v, st') →
      parseTerm m (s ++ [d]) st = .ok (v, st')) ∧
    (∀ m v₀ st v st', n ≤ m → st.i ≤ s.length → termLoop n s v₀ st = .ok (v, st') →
      termLoop m (s ++ [d]) v₀ st = .ok (v, st')) ∧
    (∀ m st v st', n ≤ m → st.i ≤ s.length → parsePower n s st = .ok (v, st') →
      parsePower m (s ++ [d]) st = .ok (v, st')) ∧
    (∀ m st v st', n ≤ m → st.i ≤ s.length → parseFactor n s st = .ok (v, st') →
      parseFactor m (s ++ [d]) st = .ok (v, st')) ∧
    (∀ m v₀ st v st', n ≤ m → st.i ≤ s.length → factLoop n s v₀ st = .ok (v, st') →
      factLoop m (s ++ [d]) v₀ st = .ok (v, st')) ∧
    (∀ m st v st', n ≤ m → st.i ≤ s.length → parsePrimary n s st = .ok (v, st') →
      parsePrimary m (s ++ [d]) st = .ok (v, st')) := by
  obtain ⟨hdi, hddig, hdp, hdm, hdt, hds, hdc, hdb, hdrp, hdlp⟩ := allowed_char_facts hd
  induction n with
  | zero =>
    refine ⟨?_, ?_, ?_, ?_, ?_, ?_, ?_, ?_⟩ <;>
      first
      | (intro m st v st' _ _ h
         simp [parseExpr, parseTerm, parsePower, parseFactor, parsePrimary] at h)
      | (intro m v₀ st v st' _ _ h
         simp [exprLoop, termLoop, factLoop] at h)
  | succ n ih =>
    obtain ⟨ihEx, ihELx, ihTx, ihTLx, ihPx, ihFx, ihFLx, ihPrx⟩ := ih
    have hELx : ∀ m v₀ st v st', n + 1 ≤ m → st.i ≤ s.length →
        exprLoop (n + 1) s v₀ st = .ok (v, st') →
        exprLoop m (s ++ [d]) v₀ st = .ok (v, st') := by
      intro m v₀ st v st' hm hst h
      obtain ⟨m', rfl⟩ : ∃ k, m = k + 1 := ⟨m - 1, by omega⟩
      have hm' : n ≤ m' := by omega
      have hskl := skipSp_le_length s st hst
      simp only [exprLoop] at h ⊢
      rw [skipSp_append hst hdi]
      split at h
      · rename_i heq
        have hj : (skipSp s st).i < s.length := (List.get?_eq_some.mp heq).1
        rw [get?_append_left hj, heq]
        split at h
        · simp at h
        · rename_i r st₂ heqT
          have hsub := ihTx m' ⟨(skipSp s st).i + 1, (skipSp s st).used⟩ r st₂ hm'
            (by show (skipSp s st).i + 1 ≤ s.length; omega) heqT
          have hst₂ : st₂.i ≤ s.length :=
            ((posMaster n s).2.2.1 ⟨(skipSp s st).i + 1, (skipSp s st).used⟩
              (by show (skipSp s st).i + 1 ≤ s.length; omega) r st₂ heqT).2
          have hloop := ihELx m' (vadd v₀ r) st₂ v st' hm' hst₂ h
          rw [hsub]
          exact hloop
      · rename_i heq
        have hj : (skipSp s st).i < s.length := (List.get?_eq_some.mp heq).1
        rw [get?_append_left hj, heq]
        split at h
        · simp at h
        · rename_i r st₂ heqT
          have hsub := ihTx m' ⟨(skipSp s st).i + 1, (skipSp s st).used⟩ r st₂ hm'
            (by show (skipSp s st).i + 1 ≤ s.length; omega) heqT
          have hst₂ : st₂.i ≤ s.length :=
            ((posMaster n s).2.2.1 ⟨(skipSp s st).i + 1, (skipSp s st).used⟩
              (by show (skipSp s st).i + 1 ≤ s.length; omega) r st₂ heqT).2
          have hloop := ihELx m' (vsub v₀ r) st₂ v st' hm' hst₂ h
          rw [hsub]
          exact hloop
      · rcases Nat.lt_or_ge (skipSp s st).i s.length with hj | hj
        · rw [get?_append_left hj]
          split
          · rename_i heq'
            exact absurd heq' (by assumption)
          · rename_i heq'
            exact absurd heq' (by assumption)
          · exact h
        · have hjeq : (skipSp s st).i = s.length := Nat.le_antisymm hskl hj
          have hg : (s ++ [d]).get? (skipSp s st).i = some d := by
            rw [hjeq]
            exact get?_append_last s d
          rw [hg]
          split
          · rename_i heq'
            injection heq' with heq''
            exact absurd heq'' hdp
          · rename_i heq'
            injection heq' with heq''
            exact absurd heq'' hdm
          · exact h
    have hTLx : ∀ m v₀ st v st', n + 1 ≤ m → st.i ≤ s.length →
        termLoop (n + 1) s v₀ st = .ok (v, st') →
        termLoop m (s ++ [d]) v₀ st = .ok (v, st') := by
      intro m v₀ st v st' hm hst h
      obtain ⟨m', rfl⟩ : ∃ k, m = k + 1 := ⟨m - 1, by omega⟩
      have hm' : n ≤ m' := by omega
      have hskl := skipSp_le_length s st hst
      simp only [termLoop] at h ⊢
      rw [skipSp_append hst hdi]
      split at h
      · rename_i heq
        have hj : (skipSp s st).i < s.length := (List.get?_eq_some.mp heq).1
        rw [get?_append_left hj, heq]
        split at h
        · simp at h
        · rename_i r st₂ heqT
          have hsub := ihPx m' ⟨(skipSp s st).i + 1, (skipSp s st).used⟩ r st₂ hm'
            (by show (skipSp s st).i + 1 ≤ s.length; omega) heqT
          have hst₂ : st₂.i ≤ s.length :=
            ((posMaster n s).2.2.2.2.1 ⟨(skipSp s st).i + 1, (skipSp s st).used⟩
              (by show (skipSp s st).i + 1 ≤ s.length; omega) r st₂ heqT).2
          have hloop := ihTLx m' (vmul v₀ r) st₂ v st' hm' hst₂ h
          rw [hsub]
          exact hloop
      · rename_i heq
        have hj : (skipSp s st).i < s.length := (List.get?_eq_some.mp heq).1
        rw [get?_append_left hj]
        split at h
        · simp at h
        · rename_i r st₂ heqT
          have hsub := ihPx m' ⟨(skipSp s st).i + 1, (skipSp s st).used⟩ r st₂ hm'
            (by show (skipSp s st).i + 1 ≤ s.length; omega) heqT
          have hst₂ : st₂.i ≤ s.length :=
            ((posMaster n s).2.2.2.2.1 ⟨(skipSp s st).i + 1, (skipSp s st).used⟩
              (by show (skipSp s st).i + 1 ≤ s.length; omega) r st₂ heqT).2
          split at h
          · simp at h
          · rename_i hz
            have hloop := ihTLx m' (vdiv v₀ r) st₂ v st' hm' hst₂ h
            split
            · rename_i heqc
              rw [heq] at heqc
              exact absurd heqc (by simp)
            · rw [hsub]
              split
              · rename_i heqc₂
                exact absurd heqc₂ (by simp)
              · rename_i r' st₂' heqc₂
                obtain ⟨h₁, h₂⟩ : r = r' ∧ st₂ = st₂' := by
                  injection heqc₂ with hp
                  injection hp with ha hb
                  exact ⟨ha, hb⟩
                subst h₁
                subst h₂
                rw [if_neg hz]
                exact hloop
            · exact absurd heq (by assumption)
      · rcases Nat.lt_or_ge (skipSp s st).i s.length with hj | hj
        · rw [get?_append_left hj]
          split
          · rename_i heq'
            exact absurd heq' (by assumption)
          · rename_i heq'
            exact absurd heq' (by assumption)
          · exact h
        · have hjeq : (skipSp s st).i = s.length := Nat.le_antisymm hskl hj
          have hg : (s ++ [d]).get? (skipSp s st).i = some d := by
            rw [hjeq]
            exact get?_append_last s d
          rw [hg]
          split
          · rename_i heq'
            injection heq' with heq''
            exact absurd heq'' hdt
          · rename_i heq'
            injection heq' with heq''
            exact absurd heq'' hds
          · exact h
    have hPx : ∀ m st v st', n + 1 ≤ m → st.i ≤ s.length →
        parsePower (n + 1) s st = .ok (v, st') →
        parsePower m (s ++ [d]) st = .ok (v, st') := by
      intro m st v st' hm hst h
      obtain ⟨m', rfl⟩ : ∃ k, m = k + 1 := ⟨m - 1, by omega⟩
      have hm' : n ≤ m' := by omega
      simp only [parsePower] at h ⊢
      split at h
      · simp at h
      · rename_i v₁ st₁ heqF
        have hsubF := ihFx m' st v₁ st₁ hm' hst heqF
        have hst₁ : st₁.i ≤ s.length :=
          ((posMaster n s).2.2.2.2.2.1 st hst v₁ st₁ heqF).2
        have hskl₁ := skipSp_le_length s st₁ hst₁
        rw [hsubF]
        split
        · rename_i heqc
          exact absurd heqc (by simp)
        · rename_i v₁' st₁' heqc
          obtain ⟨h₁, h₂⟩ : v₁ = v₁' ∧ st₁ = st₁' := by
            injection heqc with hp
            injection hp with ha hb
            exact ⟨ha, hb⟩
          subst h₁
          subst h₂
          rw [skipSp_append hst₁ hdi]
          split at h
          · rename_i heq
            have hj : (skipSp s st₁).i < s.length := (List.get?_eq_some.mp heq).1
            rw [get?_append_left hj]
            split at h
            · simp at h
            · rename_i r st₃ heqR
              have hsubR := ihPx m' ⟨(skipSp s st₁).i + 1, (skipSp s st₁).used⟩ r st₃ hm'
                (by show (skipSp s st₁).i + 1 ≤ s.length; omega) heqR
              split
              · rw [hsubR]
                split
                · rename_i heqc₂
                  exact absurd heqc₂ (by simp)
                · rename_i r' st₃' heqc₂
                  obtain ⟨h₃, h₄⟩ : r = r' ∧ st₃ = st₃' := by
                    injection heqc₂ with hp
                    injection hp with ha hb
                    exact ⟨ha, hb⟩
                  subst h₃
                  subst h₄
                  exact h
              · exact absurd heq (by assumption)
          · rcases Nat.lt_or_ge (skipSp s st₁).i s.length with hj | hj
            · rw [get?_append_left hj]
              split
              · rename_i heq'
                exact absurd heq' (by assumption)
              · exact h
            · have hjeq : (skipSp s st₁).i = s.length := Nat.le_antisymm hskl₁ hj
              have hg : (s ++ [d]).get? (skipSp s st₁).i = some d := by
                rw [hjeq]
                exact get?_append_last s d
              rw [hg]
              split
              · rename_i heq'
                injection heq' with heq''
                exact absurd heq'' hdc
              · exact h
    have hFLx : ∀ m v₀ st v st', n + 1 ≤ m → st.i ≤ s.length →
        factLoop (n + 1) s v₀ st = .ok (v, st') →
        factLoop m (s ++ [d]) v₀ st = .ok (v, st') := by
      intro m v₀ st v st' hm hst h
      obtain ⟨m', rfl⟩ : ∃ k, m = k + 1 := ⟨m - 1, by omega⟩
      have hm' : n ≤ m' := by omega
      have hskl := skipSp_le_length s st hst
      simp only [factLoop] at h ⊢
      rw [skipSp_append hst hdi]
      split at h
      · rename_i heq
        have hj : (skipSp s st).i < s.length := (List.get?_eq_some.mp heq).1
        rw [get?_append_left hj]
        split at h
        · rename_i q
          split at h
          · simp at h
          · rename_i hcond
            have hloop := ihFLx m' _ ⟨(skipSp s st).i + 1, (skipSp s st).used⟩ v st' hm'
              (by show (skipSp s st).i + 1 ≤ s.length; omega) h
            split
            · rw [if_neg hcond]
              exact hloop
            · exact absurd heq (by assumption)
        · simp at h
        · simp at h
      · rcases Nat.lt_or_ge (skipSp s st).i s.length with hj | hj
        · rw [get?_append_left hj]
          split
          · rename_i heq'
            exact absurd heq' (by assumption)
          · exact h
        · have hjeq : (skipSp s st).i = s.length := Nat.le_antisymm hskl hj
          have hg : (s ++ [d]).get? (skipSp s st).i = some d := by
            rw [hjeq]
            exact get?_append_last s d
          rw [hg]
          split
          · rename_i heq'
            injection heq' with heq''
            exact absurd heq'' hdb
          · exact h
    have hPrx : ∀ m st v st', n + 1 ≤ m → st.i ≤ s.length →
        parsePrimary (n + 1) s st = .ok (v, st') →
        parsePrimary m (s ++ [d]) st = .ok (v, st') := by
      intro m st v st' hm hst h
      obtain ⟨m', rfl⟩ : ∃ k, m = k + 1 := ⟨m - 1, by omega⟩
      have hm' : n ≤ m' := by omega
      have hskl := skipSp_le_length s st hst
      simp only [parsePrimary] at h ⊢
      rw [skipSp_append hst hdi]
      split at h
      · simp at h
      · rename_i c heq
        have hj : (skipSp s st).i < s.length := (List.get?_eq_some.mp heq).1
        rw [get?_append_left hj, heq]
        split
        · rename_i heqc
          exact absurd heqc (by simp)
        · rename_i c' heqc
          obtain hcc : c = c' := by
            injection heqc
          subst hcc
          split at h
          · rename_i hpar
            rw [if_pos hpar]
            split at h
            · simp at h
            · rename_i v₂ st₂ heqE
              have hsubE := ihEx m' ⟨(skipSp s st).i + 1, (skipSp s st).used⟩ v₂ st₂ hm'
                (by show (skipSp s st).i + 1 ≤ s.length; omega) heqE
              have hst₂ : st₂.i ≤ s.length :=
                ((posMaster n s).1 ⟨(skipSp s st).i + 1, (skipSp s st).used⟩
                  (by show (skipSp s st).i + 1 ≤ s.length; omega) v₂ st₂ heqE).2
              have hskl₂ := skipSp_le_length s st₂ hst₂
              rw [hsubE]
              split
              · rename_i heqc₂
                exact absurd heqc₂ (by simp)
              · rename_i v₂' st₂' heqc₂
                obtain ⟨h₁, h₂⟩ : v₂ = v₂' ∧ st₂ = st₂' := by
                  injection heqc₂ with hp
                  injection hp with ha hb
                  exact ⟨ha, hb⟩
                subst h₁
                subst h₂
                rw [skipSp_append hst₂ hdi]
                split at h
                · rename_i heq₂
                  have hj₂ : (skipSp s st₂).i < s.length := (List.get?_eq_some.mp heq₂).1
                  rw [get?_append_left hj₂]
                  split
                  · exact h
                  · exact absurd heq₂ (by assumption)
                · simp at h
          · rename_i hpar
            rw [if_neg hpar]
            split at h
            · rename_i hdig
              rw [if_pos hdig]
              split at h
              · simp at h
              · rename_i hna
                split at h
                · simp at h
                · rename_i hin
                  rw [if_neg hna, if_neg hin]
                  exact h
            · rename_i hdig
              rw [if_neg hdig]
              simp at h
    have hFx : ∀ m st v st', n + 1 ≤ m → st.i ≤ s.length →
        parseFactor (n + 1) s st = .ok (v, st') →
        parseFactor m (s ++ [d]) st = .ok (v, st') := by
      intro m st v st' hm hst h
      obtain ⟨m', rfl⟩ : ∃ k, m = k + 1 := ⟨m - 1, by omega⟩
      have hm' : n ≤ m' := by omega
      simp only [parseFactor] at h ⊢
      split at h
      · simp at h
      · rename_i v₁ st₁ heqPr
        have hsub := ihPrx m' st v₁ st₁ hm' hst heqPr
        have hst₁ : st₁.i ≤ s.length :=
          ((posMaster n s).2.2.2.2.2.2.2 st hst v₁ st₁ heqPr).2
        rw [hsub]
        split
        · rename_i heqc
          exact absurd heqc (by simp)
        · rename_i v₁' st₁' heqc
          obtain ⟨h₁, h₂⟩ : v₁ = v₁' ∧ st₁ = st₁' := by
            injection heqc with hp
            injection hp with ha hb
            exact ⟨ha, hb⟩
          subst h₁
          subst h₂
          exact ihFLx m' v₁ st₁ v st' hm' hst₁ h
    have hTx : ∀ m st v st', n + 1 ≤ m → st.i ≤ s.length →
        parseTerm (n + 1) s st = .ok (v, st') →
        parseTerm m (s ++ [d]) st = .ok (v, st') := by
      intro m st v st' hm hst h
      obtain ⟨m', rfl⟩ : ∃ k, m = k + 1 := ⟨m - 1, by omega⟩
      have hm' : n ≤ m' := by omega
      simp only [parseTerm] at h ⊢
      split at h
      · simp at h
      · rename_i v₁ st₁ heqP
        have hsub := ihPx m' st v₁ st₁ hm' hst heqP
        have hst₁ : st₁.i ≤ s.length :=
          ((posMaster n s).2.2.2.2.1 st hst v₁ st₁ heqP).2
        rw [hsub]
        split
        · rename_i heqc
          exact absurd heqc (by simp)
        · rename_i v₁' st₁' heqc
          obtain ⟨h₁, h₂⟩ : v₁ = v₁' ∧ st₁ = st₁' := by
            injection heqc with hp
            injection hp with ha hb
            exact ⟨ha, hb⟩
          subst h₁
          subst h₂
          exact ihTLx m' v₁ st₁ v st' hm' hst₁ h
    have hEx : ∀ m st v st', n + 1 ≤ m → st.i ≤ s.length →
        parseExpr (n + 1) s st = .ok (v, st') →
        parseExpr m (s ++ [d]) st = .ok (v, st') := by
      intro m st v st' hm hst h
      obtain ⟨m', rfl⟩ : ∃ k, m = k + 1 := ⟨m - 1, by omega⟩
      have hm' : n ≤ m' := by omega
      simp only [parseExpr] at h ⊢
      split at h
      · simp at h
      · rename_i v₁ st₁ heqT
        have hsub := ihTx m' st v₁ st₁ hm' hst heqT
        have hst₁ : st₁.i ≤ s.length :=
          ((posMaster n s).2.2.1 st hst v₁ st₁ heqT).2
        rw [hsub]
        split
        · rename_i heqc
          exact absurd heqc (by simp)
        · rename_i v₁' st₁' heqc
          obtain ⟨h₁, h₂⟩ : v₁ = v₁' ∧ st₁ = st₁' := by
            injection heqc with hp
            injection hp with ha hb
            exact ⟨ha, hb⟩
          subst h₁
          subst h₂
          exact ihELx m' v₁ st₁ v st' hm' hst₁ h
    exact ⟨hEx, hELx, hTx, hTLx, hPx, hFx, hFLx, hPrx⟩

/-- Appending a further allowed digit to an input that parses
successfully makes the whole parse fail with a trailing-characters error
reporting that digit: the appended digit is never consumed by the
grammar (it is not an operator and not significant whitespace), so the
final cursor stops before it. -/
theorem parse_append_digit (s : Text) (d : Char) (hd : d ∈ allowedDigits) (v : PyResult)
    (h : parse s = .ok v) :
    parse (s ++ [d]) = .error (.perr ⟨mkS d, .trailingCharacters⟩) := by
  have hdi : insignificant d = false := (allowed_char_facts hd).1
  simp only [parse] at h
  split at h
  · simp at h
  · rename_i hne₀
    split at h
    · simp at h
    · rename_i v₁ st₁ heqE
      split at h
      · simp at h
      · rename_i hne₁
        have hlen₁ : (skipSp s st₁).i = s.length := by
          by_contra hc
          exact hne₁ hc
        have hsk0 : (skipSp s ⟨0, []⟩).i ≤ s.length :=
          skipSp_le_length s ⟨0, []⟩ (Nat.zero_le _)
        have hlt₀ : (skipSp s ⟨0, []⟩).i < s.length := by omega
        have hst₁le : st₁.i ≤ s.length :=
          ((posMaster (fuelFor s) s).1 (skipSp s ⟨0, []⟩) hsk0 v₁ st₁ heqE).2
        have hext : parseExpr (fuelFor (s ++ [d])) (s ++ [d]) (skipSp s ⟨0, []⟩) =
            .ok (v₁, st₁) := by
          apply (extMaster d hd s (fuelFor s)).1 (fuelFor (s ++ [d])) _ v₁ st₁ ?_ hsk0 heqE
          simp only [fuelFor, List.length_append, List.length_cons, List.length_nil]
          omega
        simp only [parse]
        rw [skipSp_append (Nat.zero_le _) hdi]
        rw [if_neg (by
          simp only [List.length_append, List.length_cons, List.length_nil]
          omega)]
        rw [hext]
        split
        · rename_i heqc
          exact absurd heqc (by simp)
        · rename_i v₁' st₁' heqc
          obtain ⟨hv, hs⟩ : v₁ = v₁' ∧ st₁ = st₁' := by
            injection heqc with hp
            injection hp with ha hb
            exact ⟨ha, hb⟩
          subst hv
          subst hs
          rw [skipSp_append hst₁le hdi]
          rw [if_pos (by
            simp only [List.length_append, List.length_cons, List.length_nil]
            omega)]
          have hpk : peekS (s ++ [d]) (skipSp s st₁).i = mkS d := by
            simp only [peekS]
            rw [hlen₁, get?_append_last]
          rw [hpk]

/-- A second occurrence of an already-consumed allowed digit as the next
significant character makes `parse_primary` fail with the
duplicate-digit error naming that digit. -/
theorem primary_dup (n : Nat) (s : Text) (st : PState) (d : Char)
    (hd : d ∈ allowedDigits) (hmem : d ∈ st.used)
    (heq : s.get? (skipSp s st).i = some d) :
    parsePrimary (n + 1) s st = .error (.perr ⟨mkS d, .duplicateDigit⟩) := by
  have hmem' : d ∈ (skipSp s st).used := hmem
  simp only [allowedDigits, List.mem_cons, List.not_mem_nil, or_false] at hd
  rcases hd with rfl | rfl | rfl | rfl | rfl | rfl <;>
  · simp only [parsePrimary]
    split
    · rename_i heqc
      rw [heq] at heqc
      cases heqc
    · rename_i c heqc
      rw [heq] at heqc
      injection heqc with hc
      subst hc
      rw [if_neg (by decide), if_pos (by decide), if_neg (by decide), if_pos hmem']

/-- A division whose right-hand operand parses successfully and
evaluates to zero makes the `parse_term` loop fail with the
division-by-zero error naming the `/` operator. -/
theorem termLoop_div_zero (n : Nat) (s : Text) (st : PState) (v₀ r : Val) (st₂ : PState)
    (heq : s.get? (skipSp s st).i = some '/')
    (hok : parsePower n s ⟨(skipSp s st).i + 1, (skipSp s st).used⟩ = .ok (r, st₂))
    (hz : eqZero r = true) :
    termLoop (n + 1) s v₀ st = .error (.perr ⟨mkS '/', .divisionByZero⟩) := by
  simp only [termLoop]
  split
  · rename_i heqc
    rw [heq] at heqc
    cases heqc
  · rw [hok]
    split
    · rename_i heqc
      exact absurd heqc (by simp)
    · rename_i r' st₂' heqc
      obtain ⟨h₁, h₂⟩ : r = r' ∧ st₂ = st₂' := by
        injection heqc with hp
        injection hp with ha hb
        exact ⟨ha, hb⟩
      subst h₁
      subst h₂
      rw [if_pos hz]
  · exact absurd heq (by assumption)

/-- A postfix `!` applied when the accumulated value is not a
non-negative whole number makes the `parse_factor` loop fail with the
invalid-factorial error naming the `!`; the check inspects the current
value, anew at each application. -/
theorem factLoop_invalid (n : Nat) (s : Text) (st : PState) (q : Frac)
    (heq : s.get? (skipSp s st).i = some '!')
    (hbad : q.isInt = false ∨ q.isNeg = true) :
    factLoop (n + 1) s (.rat q) st = .error (.perr ⟨mkS '!', .invalidFactorial⟩) := by
  simp only [factLoop]
  split
  · rename_i heqc
    rw [heq] at heqc
    injection heqc with hc
    rw [if_pos ?_]
    rcases hbad with hb | hb
    · exact Or.inl (by simp [hb])
    · exact Or.inr hb
  · exact absurd heq (by assumption)

/-- An input consisting only of insignificant characters (whitespace and
backquotes) fails with the empty-input error. -/
theorem parse_insignificant (s : Text) (h : ∀ c ∈ s, insignificant c = true) :
    parse s = .error (.perr ⟨noChar, .emptyInput⟩) := by
  have hskip := skipFrom_isSkip s s.length 0 (by omega)
  have hge : s.length ≤ skipFrom s s.length 0 := by
    by_contra hc
    push_neg at hc
    have hc' : skipFrom s s.length 0 < s.length := hc
    obtain ⟨c, hcm⟩ : ∃ c, s.get? (skipFrom s s.length 0) = some c := by
      have := List.get?_eq_get hc'
      exact ⟨_, this⟩
    have hstop := hskip.2.2 c hcm
    have hin := h c (List.get?_mem hcm)
    rw [hin] at hstop
    cases hstop
  have hge' : s.length ≤ (skipSp s ⟨0, []⟩).i := hge
  simp only [parse]
  rw [if_pos hge']

/-- When the expression parse succeeds but the cursor (after skipping
insignificant characters) stops before the end of the input, `parse`
fails with the trailing-characters error reporting the first unconsumed
character. -/
theorem parse_trailing (s : Text) (v₁ : Val) (st₁ : PState)
    (h₀ : ¬s.length ≤ (skipSp s ⟨0, []⟩).i)
    (hE : parseExpr (fuelFor s) s (skipSp s ⟨0, []⟩) = .ok (v₁, st₁))
    (hne : (skipSp s st₁).i ≠ s.length) :
    parse s = .error (.perr ⟨peekS s (skipSp s st₁).i, .trailingCharacters⟩) := by
  simp only [parse]
  rw [if_neg h₀, hE]
  split
  · rename_i heqc
    exact absurd heqc (by simp)
  · rename_i v₁' st₁' heqc
    obtain ⟨h₁, h₂⟩ : v₁ = v₁' ∧ st₁ = st₁' := by
      injection heqc with hp
      injection hp with ha hb
      exact ⟨ha, hb⟩
    subst h₁
    subst h₂
    rw [if_pos hne]

/-- Claim C1: for the input `6^4+5*(3!+2)+1`, evaluate succeeds and
returns the integer 1337; for the input `5*(4+3)+6!`, evaluate succeeds
and returns the integer 755. -/
theorem c1_end_to_end_values :
    parse ['6', '^', '4', '+', '5', '*', '(', '3', '!', '+', '2', ')', '+', '1'] =
      .ok (.pyInt 1337) ∧
    parse ['5', '*', '(', '4', '+', '3', ')', '+', '6', '!'] = .ok (.pyInt 755) :=
  ⟨by decide, by decide⟩

/-- Claim C2: digit uniqueness is global across the whole input.  First,
an input whose digit characters are all allowed and pairwise distinct
never fails with a digit-related error kind (duplicate or disallowed
digit).  Second, whenever a digit that is already in the used-digit set
reappears as the next significant character (a second occurrence as an
operand), `parse_primary` fails with the duplicate-digit error naming
that digit. -/
theorem c2_digit_uniqueness_global :
    (∀ s : Text, goodDigits s → ∀ pe, parse s = .error (.perr pe) →
      pe.kind ≠ .duplicateDigit ∧ pe.kind ≠ .disallowedDigit) ∧
    (∀ (n : Nat) (s : Text) (st : PState) (d : Char), d ∈ allowedDigits → d ∈ st.used →
      s.get? (skipSp s st).i = some d →
      parsePrimary (n + 1) s st = .error (.perr ⟨mkS d, .duplicateDigit⟩)) := by
  constructor
  · intro s hg pe hpe
    have he := parse_errOkD s pe hpe
    constructor
    · intro hk
      obtain ⟨c, _, hal, hcnt⟩ := he.1 hk
      have := hg.2 c hal
      omega
    · intro hk
      obtain ⟨c, _, hdig, hnal, hmem⟩ := he.2 hk
      exact hnal (hg.1 c hmem hdig)
  · exact primary_dup

/-- Witness for C2: the digit-clean input `(1+2` fails with the
missing-paren kind, not a digit-related kind, and after `1+` of the
input `1+1` has been parsed the second `1` draws the duplicate-digit
error. -/
theorem c2_digit_uniqueness_global_witness :
    ((⟨mkS ')', ErrKind.missingClosingParen⟩ : PErr).kind ≠ ErrKind.duplicateDigit ∧
      (⟨mkS ')', ErrKind.missingClosingParen⟩ : PErr).kind ≠ ErrKind.disallowedDigit) ∧
    parsePrimary 2 ['1', '+', '1'] ⟨2, ['1']⟩ = .error (.perr ⟨mkS '1', .duplicateDigit⟩) :=
  ⟨c2_digit_uniqueness_global.1 ['(', '1', '+', '2'] ⟨by decide, by decide⟩ _ (by decide),
   c2_digit_uniqueness_global.2 1 ['1', '+', '1'] ⟨2, ['1']⟩ '1' (by decide) (by decide)
     (by decide)⟩

/-- Counterexample to claim C3 as stated: `2^3^2` does not evaluate at
all, because the digit 2 occurs twice; the parse fails with the
duplicate-digit error instead of returning 512. -/
theorem c3_assoc_counterexample :
    parse ['2', '^', '3', '^', '2'] = .error (.perr ⟨mkS '2', .duplicateDigit⟩) ∧
    parse ['2', '^', '3', '^', '2'] ≠ .ok (.pyInt 512) :=
  ⟨by decide, by decide⟩

/-- Claim C3 as amended: `2^3^2` itself fails with DuplicateDigit (the
digit 2 repeats); on digit-distinct input the power chain is
right-associative, `2^3^(6-4)` = 2^(3^2) = 512 (a left-associative
reading would give (2^3)^2 = 64), and division is left-associative,
`6/3/2` = (6/3)/2 = 1. -/
theorem c3_assoc_amended :
    parse ['2', '^', '3', '^', '2'] = .error (.perr ⟨mkS '2', .duplicateDigit⟩) ∧
    parse ['2', '^', '3', '^', '(', '6', '-', '4', ')'] = .ok (.pyInt 512) ∧
    parse ['6', '/', '3', '/', '2'] = .ok (.pyInt 1) :=
  ⟨by decide, by decide, by decide⟩

/-- Counterexample to claim C4 as stated: `4/0` fails with the
disallowed-digit error naming `0` (0 is outside the digit alphabet and
is rejected inside `parse_primary`, before the division's zero test is
ever reached), not with a division-by-zero error. -/
theorem c4_div_zero_counterexample :
    parse ['4', '/', '0'] = .error (.perr ⟨mkS '0', .disallowedDigit⟩) ∧
    ErrKind.disallowedDigit ≠ ErrKind.divisionByZero :=
  ⟨by decide, by decide⟩

/-- Claim C4 as amended: `4/0` fails with DisallowedDigit on `0`; a
division whose right-hand operand parses successfully and evaluates to
zero, such as `4/(3-2-1)`, fails with the division-by-zero error naming
`/`, and in general the `parse_term` loop raises that error whenever the
freshly parsed right-hand operand of `/` is zero. -/
theorem c4_div_zero_amended :
    parse ['4', '/', '(', '3', '-', '2', '-', '1', ')'] =
      .error (.perr ⟨mkS '/', .divisionByZero⟩) ∧
    (∀ (n : Nat) (s : Text) (st : PState) (v₀ r : Val) (st₂ : PState),
      s.get? (skipSp s st).i = some '/' →
      parsePower n s ⟨(skipSp s st).i + 1, (skipSp s st).used⟩ = .ok (r, st₂) →
      eqZero r = true →
      termLoop (n + 1) s v₀ st = .error (.perr ⟨mkS '/', .divisionByZero⟩)) :=
  ⟨by decide, termLoop_div_zero⟩

/-- Witness for the amended C4: concretely, with the accumulator 4 and
the remaining input `/(3-2-1)`, the term loop fails with the
division-by-zero error. -/
theorem c4_div_zero_amended_witness :
    termLoop 41 ['/', '(', '3', '-', '2', '-', '1', ')'] (.rat ⟨4, 1⟩) ⟨0, []⟩ =
      .error (.perr ⟨mkS '/', .divisionByZero⟩) :=
  c4_div_zero_amended.2 40 ['/', '(', '3', '-', '2', '-', '1', ')'] ⟨0, []⟩ (.rat ⟨4, 1⟩)
    (.rat ⟨0, 1⟩) ⟨8, ['1', '2', '3']⟩ (by decide) (by decide) (by decide)

/-- Claim C5: each postfix `!` requires the current accumulated value to
be a non-negative whole number, checked anew at every application: the
`parse_factor` loop fails with the invalid-factorial error naming `!`
whenever the accumulated value is non-integral or negative at a `!`;
concretely `(1-2)!` fails with InvalidFactorial and `3!!` evaluates to
720. -/
theorem c5_factorial_domain :
    (∀ (n : Nat) (s : Text) (st : PState) (q : Frac),
      s.get? (skipSp s st).i = some '!' →
      q.isInt = false ∨ q.isNeg = true →
      factLoop (n + 1) s (.rat q) st = .error (.perr ⟨mkS '!', .invalidFactorial⟩)) ∧
    parse ['(', '1', '-', '2', ')', '!'] = .error (.perr ⟨mkS '!', .invalidFactorial⟩) ∧
    parse ['3', '!', '!'] = .ok (.pyInt 720) :=
  ⟨factLoop_invalid, by decide, by decide⟩

/-- Witness for C5: with the accumulated value -1 at the `!` of
`(1-2)!`, the factor loop fails with the invalid-factorial error. -/
theorem c5_factorial_domain_witness :
    factLoop 4 ['(', '1', '-', '2', ')', '!'] (.rat ⟨-1, 1⟩) ⟨5, ['2', '1']⟩ =
      .error (.perr ⟨mkS '!', .invalidFactorial⟩) :=
  c5_factorial_domain.1 3 ['(', '1', '-', '2', ')', '!'] ⟨5, ['2', '1']⟩ ⟨-1, 1⟩
    (by decide) (by decide)

/-- Claim C6 evaluated at its own example: on `(1-3)^(2/4)` the code
computes `(-2.0) ** 0.5`, and CPython returns a complex number from
`float ** float` with a negative base and non-integral exponent instead
of raising, so no invalid-power error is reported: `parse` returns the
complex value as a success.  The claim that such inputs report
InvalidPower and that no non-real value is ever returned is therefore
violated by the code. -/
theorem c6_power_complex_result :
    parse ['(', '1', '-', '3', ')', '^', '(', '2', '/', '4', ')'] = .ok (.pyOther .cplx) := by
  decide

/-- Counterexample to claim C7 as stated: `(6-6)!` is not legal — the
digit 6 occurs twice, so the parse fails with the duplicate-digit error
before any factorial is applied, rather than succeeding with 0! = 1. -/
theorem c7_factorial_zero_counterexample :
    parse ['(', '6', '-', '6', ')', '!'] = .error (.perr ⟨mkS '6', .duplicateDigit⟩) ∧
    parse ['(', '6', '-', '6', ')', '!'] ≠ .ok (.pyInt 1) :=
  ⟨by decide, by decide⟩

/-- Claim C7 as amended: the factorial domain check applies to the
accumulated value at each `!`, not to the digit alphabet — an expression
with distinct digits accumulating to zero, `(3-2-1)!`, is legal and
returns 1 (0! = 1), while `(1-2)!` fails with InvalidFactorial;
`(6-6)!` itself fails earlier with DuplicateDigit. -/
theorem c7_factorial_zero_amended :
    parse ['(', '3', '-', '2', '-', '1', ')', '!'] = .ok (.pyInt 1) ∧
    parse ['(', '1', '-', '2', ')', '!'] = .error (.perr ⟨mkS '!', .invalidFactorial⟩) ∧
    parse ['(', '6', '-', '6', ')', '!'] = .error (.perr ⟨mkS '6', .duplicateDigit⟩) :=
  ⟨by decide, by decide, by decide⟩

/-- Claim C8: structural failures are classified as stated.  An input of
insignificant characters only (in particular the empty input) fails with
EmptyInput; `(1+2` fails with MissingClosingParen; `1+2x` fails with
TrailingCharacters reporting `x`; and in general, whenever the
expression parse succeeds but the cursor stops before the end of the
input, `parse` fails with TrailingCharacters reporting the first
unconsumed character. -/
theorem c8_structural_failures :
    (∀ s : Text, (∀ c ∈ s, insignificant c = true) →
      parse s = .error (.perr ⟨noChar, .emptyInput⟩)) ∧
    parse [] = .error (.perr ⟨noChar, .emptyInput⟩) ∧
    parse ['(', '1', '+', '2'] = .error (.perr ⟨mkS ')', .missingClosingParen⟩) ∧
    parse ['1', '+', '2', 'x'] = .error (.perr ⟨mkS 'x', .trailingCharacters⟩) ∧
    (∀ (s : Text) (v₁ : Val) (st₁ : PState),
      ¬s.length ≤ (skipSp s ⟨0, []⟩).i →
      parseExpr (fuelFor s) s (skipSp s ⟨0, []⟩) = .ok (v₁, st₁) →
      (skipSp s st₁).i ≠ s.length →
      parse s = .error (.perr ⟨peekS s (skipSp s st₁).i, .trailingCharacters⟩)) :=
  ⟨parse_insignificant, by decide, by decide, by decide, parse_trailing⟩

/-- Witness for C8: the empty input fails with EmptyInput by the general
insignificant-input conjunct, and `1+2x` draws the trailing-characters
error reporting the character at the stop position by the general
trailing conjunct. -/
theorem c8_structural_failures_witness :
    parse [] = .error (.perr ⟨noChar, .emptyInput⟩) ∧
    parse ['1', '+', '2', 'x'] =
      .error (.perr ⟨peekS ['1', '+', '2', 'x']
        (skipSp ['1', '+', '2', 'x'] ⟨3, ['2', '1']⟩).i, .trailingCharacters⟩) :=
  ⟨c8_structural_failures.1 [] (by decide),
   c8_structural_failures.2.2.2.2 ['1', '+', '2', 'x'] (.rat ⟨3, 1⟩) ⟨3, ['2', '1']⟩
     (by decide) (by decide) (by decide)⟩

/-- Claim C9: throughout any evaluation the cursor position is
monotonically non-decreasing and stays within the bounds of the input:
starting from any in-bounds state, skipping insignificant characters and
every grammar method that returns successfully leave the cursor at or
after its starting position and at most one past the last character. -/
theorem c9_cursor_monotone (fuel : Nat) (s : Text) (st : PState) (h : st.i ≤ s.length) :
    (st.i ≤ (skipSp s st).i ∧ (skipSp s st).i ≤ s.length) ∧
    (∀ v st', parseExpr fuel s st = .ok (v, st') → st.i ≤ st'.i ∧ st'.i ≤ s.length) ∧
    (∀ v st', parseTerm fuel s st = .ok (v, st') → st.i ≤ st'.i ∧ st'.i ≤ s.length) ∧
    (∀ v st', parsePower fuel s st = .ok (v, st') → st.i ≤ st'.i ∧ st'.i ≤ s.length) ∧
    (∀ v st', parseFactor fuel s st = .ok (v, st') → st.i ≤ st'.i ∧ st'.i ≤ s.length) ∧
    (∀ v st', parsePrimary fuel s st = .ok (v, st') → st.i ≤ st'.i ∧ st'.i ≤ s.length) := by
  obtain ⟨hE, hEL, hT, hTL, hP, hF, hFL, hPr⟩ := posMaster fuel s
  exact ⟨⟨skipSp_le s st, skipSp_le_length s st h⟩, hE st h, hT st h, hP st h, hF st h,
    hPr st h⟩

/-- Witness for C9: parsing `3-2` from the start moves the cursor from 0
to 3, within the bounds of the three-character input. -/
theorem c9_cursor_monotone_witness :
    (⟨0, []⟩ : PState).i ≤ (⟨3, ['2', '3']⟩ : PState).i ∧
      (⟨3, ['2', '3']⟩ : PState).i ≤ (['3', '-', '2'] : Text).length :=
  (c9_cursor_monotone 24 ['3', '-', '2'] ⟨0, []⟩ (by decide)).2.1 (.rat ⟨1, 1⟩)
    ⟨3, ['2', '3']⟩ (by decide)

/-- Claim C10: adjacent digit characters are never concatenated into a
multi-character number: appending a further allowed digit to any input
that evaluates successfully makes the whole parse fail with the
trailing-characters error reporting that digit, rather than extending
any literal. -/
theorem c10_no_multidigit (s : Text) (d : Char) (v : PyResult) (hd : d ∈ allowedDigits)
    (h : parse s = .ok v) :
    parse (s ++ [d]) = .error (.perr ⟨mkS d, .trailingCharacters⟩) :=
  parse_append_digit s d hd v h

/-- Witness for C10: `1` parses to 1, and `12` fails with the
trailing-characters error reporting `2`. -/
theorem c10_no_multidigit_witness :
    parse (['1'] ++ ['2']) = .error (.perr ⟨mkS '2', .trailingCharacters⟩) :=
  c10_no_multidigit ['1'] '2' (.pyInt 1) (by decide) (by decide)

end MathCountHTW
